import Mathlib

/-!
# Verification of the Quantum correlator / orchestrator core

Shallow embedding of the algorithmic core of the two-station coincidence
experiment: the time-delay correlator (`Correlator.cpp`) and the experiment
orchestrator (`orchestrator.cpp`).  C++ `double` values are modelled as `ℚ`
(the claims under study concern control flow, counting and exact algebraic
identities, not IEEE rounding), `uint64_t`/`size_t` as `ℕ` (with explicit
`% 2^64` where wrap-around can occur), and `int64_t` as `ℤ`.
-/

namespace Quantum

/-! ## Correlator data model (`Correlator.h`) -/

/-- `Bound`: the acceptance interval `[lower, upper]` (picoseconds),
`struct Bound { uint64_t lower; uint64_t upper; }`. -/
structure Bound where
  lower : ℕ
  upper : ℕ
deriving DecidableEq, Repr

instance : Inhabited Bound := ⟨⟨0, 0⟩⟩

/-- `Vmax`: result record of `Correlator::rmax`,
`struct Vmax { double max; size_t kmax; }`. -/
structure Vmax where
  max : ℚ
  kmax : ℕ
deriving DecidableEq, Repr

/-! ## `Correlator::is_target_in_bound` (Correlator.cpp lines 246-256)

```cpp
bool Correlator::is_target_in_bound(Bound arr[], size_t size, uint64_t target) {
    size_t left = 0, right = size;
    while (left < right) {
        size_t mid = left + (right - left) / 2;
        if (arr[mid].upper > target)
            right = mid;
        else
            left = mid + 1;
    }
    return (left < size) && (arr[left].lower <= target && target <= arr[left].upper);
}
```

The C array (`Bound arr[]` + `size_t size`) is embedded as a function
`ℕ → Bound` together with an explicit `size : ℕ`.  The `while` loop is
embedded with explicit fuel; `right - left` shrinks by at least one every
iteration, so `size` units of fuel always suffice. -/

/-- The binary-search loop of `is_target_in_bound`: returns the final value of
`left`.  `fuel ≥ right - left` guarantees the loop runs to completion. -/
def bsearchGo (arr : ℕ → Bound) (target : ℕ) : ℕ → ℕ → ℕ → ℕ
  | 0, left, _ => left
  | fuel + 1, left, right =>
    if left < right then
      let mid := left + (right - left) / 2
      if target < (arr mid).upper then
        bsearchGo arr target fuel left mid
      else
        bsearchGo arr target fuel (mid + 1) right
    else left

/-- `Correlator::is_target_in_bound`. -/
def is_target_in_bound (arr : ℕ → Bound) (size target : ℕ) : Bool :=
  let left := bsearchGo arr target size 0 size
  decide (left < size) && (decide ((arr left).lower ≤ target) && decide (target ≤ (arr left).upper))

/-- Linear containment scan over the same array: does some bound `arr j`
(`j < size`) contain `target` inclusively (`lower ≤ target ≤ upper`)?
This is the reference the spec compares the binary search against. -/
def linearContains (arr : ℕ → Bound) (size target : ℕ) : Bool :=
  (List.range size).any fun j =>
    decide ((arr j).lower ≤ target) && decide (target ≤ (arr j).upper)

/-! Invariant proof for the binary-search loop. -/

/-- Loop invariant for `bsearchGo`: with non-decreasing `upper` fields, enough
fuel, and the two half-invariants holding at entry, the returned index `res`
splits `[0, size)` at the first bound whose `upper` exceeds `target`. -/
theorem bsearchGo_spec (arr : ℕ → Bound) (size target : ℕ)
    (hu : ∀ i j, i ≤ j → j < size → (arr i).upper ≤ (arr j).upper) :
    ∀ fuel left right, right - left ≤ fuel → left ≤ right → right ≤ size →
    (∀ j, j < left → (arr j).upper ≤ target) →
    (∀ j, right ≤ j → j < size → target < (arr j).upper) →
    left ≤ bsearchGo arr target fuel left right ∧
    bsearchGo arr target fuel left right ≤ right ∧
    (∀ j, j < bsearchGo arr target fuel left right → (arr j).upper ≤ target) ∧
    (∀ j, bsearchGo arr target fuel left right ≤ j → j < size → target < (arr j).upper) := by
  intro fuel
  induction fuel with
  | zero =>
    intro left right hfuel hlr hrs hlo hhi
    have : left = right := by omega
    subst this
    simp only [bsearchGo]
    exact ⟨le_refl _, le_refl _, hlo, hhi⟩
  | succ fuel ih =>
    intro left right hfuel hlr hrs hlo hhi
    by_cases hcond : left < right
    · have hmidlt : left + (right - left) / 2 < right := by omega
      have hmidge : left ≤ left + (right - left) / 2 := by omega
      by_cases hcmp : target < (arr (left + (right - left) / 2)).upper
      · have hrec := ih left (left + (right - left) / 2) (by omega) (by omega) (by omega) hlo
          (by
            intro j hj hjs
            exact lt_of_lt_of_le hcmp (hu _ j hj hjs))
        simp only [bsearchGo, if_pos hcond, if_pos hcmp]
        exact ⟨hrec.1, le_trans hrec.2.1 (le_of_lt hmidlt), hrec.2.2⟩
      · have hrec := ih (left + (right - left) / 2 + 1) right (by omega) (by omega) hrs
          (by
            intro j hj
            have hj' : j ≤ left + (right - left) / 2 := by omega
            exact le_trans (hu j _ hj' (by omega)) (Nat.not_lt.mp hcmp))
          hhi
        simp only [bsearchGo, if_pos hcond, if_neg hcmp]
        exact ⟨le_trans (by omega) hrec.1, hrec.2.1, hrec.2.2⟩
    · have : left = right := by omega
      subst this
      simp only [bsearchGo, if_neg hcond]
      exact ⟨le_refl _, le_refl _, hlo, hhi⟩

/-- Concrete bound array for settling C2: a single bound `[0, 5]`. -/
def oneBound : ℕ → Bound := fun _ => ⟨0, 5⟩

/-- Concrete monotone bound array `[10*i, 10*i + 5]` used as a witness input. -/
def stepBounds : ℕ → Bound := fun i => ⟨10 * i, 10 * i + 5⟩

/-- C2 (counterexample): the claim fails at `target = 5` on the single bound
`[0, 5]`: the binary search of `is_target_in_bound` returns `false` while the
linear containment scan returns `true`, because the search locates the first
bound whose `upper` strictly exceeds the target and so skips a bound whose
`upper` equals the target. -/
theorem is_target_in_bound_ne_linear_at_upper :
    is_target_in_bound oneBound 1 5 = false ∧ linearContains oneBound 1 5 = true := by
  decide

/-- C2 (amended): for every array of Bounds with both `lower` and `upper`
non-decreasing, `is_target_in_bound` returns true iff some bound contains the
target with `lower ≤ target < upper` (strict at the upper endpoint); in
particular the binary search gives the same membership result as the linear
inclusive containment scan for every target that is not equal to any bound's
`upper` endpoint. -/
theorem is_target_in_bound_iff_strict_containment (arr : ℕ → Bound) (size target : ℕ)
    (hu : ∀ i j, i ≤ j → j < size → (arr i).upper ≤ (arr j).upper)
    (hl : ∀ i j, i ≤ j → j < size → (arr i).lower ≤ (arr j).lower) :
    (is_target_in_bound arr size target = true ↔
      ∃ j, j < size ∧ (arr j).lower ≤ target ∧ target < (arr j).upper) ∧
    ((∀ j, j < size → target ≠ (arr j).upper) →
      is_target_in_bound arr size target = linearContains arr size target) := by
  obtain ⟨-, -, hlo, hhi⟩ := bsearchGo_spec arr size target hu size 0 size (by omega)
    (Nat.zero_le _) (le_refl _) (by intro j hj; omega) (by intro j h1 h2; omega)
  have hchar : is_target_in_bound arr size target = true ↔
      bsearchGo arr target size 0 size < size ∧
      ((arr (bsearchGo arr target size 0 size)).lower ≤ target ∧
       target ≤ (arr (bsearchGo arr target size 0 size)).upper) := by
    simp [is_target_in_bound]
  have hmain : is_target_in_bound arr size target = true ↔
      ∃ j, j < size ∧ (arr j).lower ≤ target ∧ target < (arr j).upper := by
    rw [hchar]
    constructor
    · rintro ⟨h1, h2, -⟩
      exact ⟨_, h1, h2, hhi _ (le_refl _) h1⟩
    · rintro ⟨j, hj, hjl, hju⟩
      have hresj : bsearchGo arr target size 0 size ≤ j := by
        by_contra hcon
        push_neg at hcon
        exact absurd hju (not_lt.mpr (hlo j hcon))
      have h1 : bsearchGo arr target size 0 size < size := lt_of_le_of_lt hresj hj
      exact ⟨h1, le_trans (hl _ j hresj hj) hjl, le_of_lt (hhi _ (le_refl _) h1)⟩
  refine ⟨hmain, ?_⟩
  intro hne
  have hlin : linearContains arr size target = true ↔
      ∃ j, j < size ∧ (arr j).lower ≤ target ∧ target ≤ (arr j).upper := by
    simp [linearContains]
  rw [Bool.eq_iff_iff, hmain, hlin]
  constructor
  · rintro ⟨j, hj, h2, h3⟩
    exact ⟨j, hj, h2, le_of_lt h3⟩
  · rintro ⟨j, hj, h2, h3⟩
    exact ⟨j, hj, h2, lt_of_le_of_ne h3 (hne j hj)⟩

/-- C2 (witness): the amended theorem applied to the concrete monotone array
`[10*i, 10*i + 5]` of size 2 at target 12. -/
theorem is_target_in_bound_iff_strict_containment_witness :
    (is_target_in_bound stepBounds 2 12 = true ↔
      ∃ j, j < 2 ∧ (stepBounds j).lower ≤ 12 ∧ 12 < (stepBounds j).upper) ∧
    ((∀ j, j < 2 → 12 ≠ (stepBounds j).upper) →
      is_target_in_bound stepBounds 2 12 = linearContains stepBounds 2 12) :=
  is_target_in_bound_iff_strict_containment stepBounds 2 12
    (by intro i j hij hj; simp only [stepBounds]; omega)
    (by intro i j hij hj; simp only [stepBounds]; omega)

/-! ## `Correlator::rmax` and the tail of `Correlator::runCorrelation`
(Correlator.cpp lines 186-196 and 407-464)

```cpp
Vmax Correlator::rmax(double* v, size_t N) {
    Vmax m;
    m.max = v[0];
    for (size_t k = 1; k < N; k++) {
        if (v[k] > m.max) {
            m.max = v[k];
            m.kmax = k;
        }
    }
    return m;
}
```

The C++ local `Vmax m;` leaves `m.kmax` uninitialized: only `m.max` is
assigned before the loop, and `m.kmax` is assigned only when some later
element strictly exceeds `v[0]`.  The indeterminate initial content of
`m.kmax` is made explicit as the parameter `initKmax`. -/

/-- `Correlator::rmax`, with the indeterminate initial value of the
uninitialized field `m.kmax` exposed as `initKmax`. -/
def rmax (initKmax : ℕ) (v : ℕ → ℚ) (N : ℕ) : Vmax :=
  (List.range' 1 (N - 1)).foldl
    (fun m k => if m.max < v k then ⟨v k, k⟩ else m) ⟨v 0, initKmax⟩

/-- The value returned by `Correlator::runCorrelation` (line 463):
`this->tau * (uint64_t)smax.kmax`, where `smax = CalculateDeltaT(N)` ends in
`rmax(S, N)` over the standardized correlation series `S` (line 179).  The
FFT pipeline that produces `S` is taken as given, per the claim. -/
def runCorrelationResult (initKmax : ℕ) (tau : ℕ) (S : ℕ → ℚ) (N : ℕ) : ℕ :=
  tau * (rmax initKmax S N).kmax

/-- A standardized series whose maximum occurs at index 0. -/
def maxAtZeroSeries : ℕ → ℚ := fun k => if k = 0 then 5 else 1

/-- C1 (code bug): when the maximum of the series occurs at index 0, the loop
of `rmax` never assigns `m.kmax`, so the returned index is whatever
indeterminate value the uninitialized local held: two different initial
memory contents (7 and 42) give two different `kmax` values and two different
`runCorrelation` results on the same series `[5, 1]`, instead of the claimed
`binWidth * 0`. -/
theorem rmax_kmax_uninitialized_at_argmax_zero :
    rmax 7 maxAtZeroSeries 2 = ⟨5, 7⟩ ∧ rmax 42 maxAtZeroSeries 2 = ⟨5, 42⟩ ∧
    runCorrelationResult 7 1000 maxAtZeroSeries 2 = 7000 ∧
    runCorrelationResult 42 1000 maxAtZeroSeries 2 = 42000 := by
  constructor
  · rfl
  · constructor
    · rfl
    · constructor <;> rfl

/-! ## Cross-power spectrum element of `Correlator::CalculateDeltaT`
(Correlator.cpp lines 142-150)

```cpp
    for (size_t k = 0; k < N; k++) {
        double real1 = buff1_c[k][0];
        double imag1 = buff1_c[k][1];
        double real2 = buff2_c[k][0];
        double imag2 = buff2_c[k][1];

        cbuff_c[k][0] = real1 * real2 + imag1 * imag2;
        cbuff_c[k][1] = -imag1 * real2 + real1 * imag2;
    }
```
Complex numbers are modelled as `(re, im)` pairs of rationals. -/

/-- Product of two complex numbers represented as `(re, im)` pairs. -/
def cmul (a b : ℚ × ℚ) : ℚ × ℚ :=
  (a.1 * b.1 - a.2 * b.2, a.1 * b.2 + a.2 * b.1)

/-- Complex conjugate of an `(re, im)` pair. -/
def cconj (a : ℚ × ℚ) : ℚ × ℚ := (a.1, -a.2)

/-- The elementwise cross-power value computed by `CalculateDeltaT`. -/
def crossPowerElem (real1 imag1 real2 imag2 : ℚ) : ℚ × ℚ :=
  (real1 * real2 + imag1 * imag2, -imag1 * real2 + real1 * imag2)

/-- C4 (counterexample): at station spectra `A = (0, 1)` and `B = (1, 0)` the
computed cross-power element `(0, -1)` is NOT `A` times the conjugate of `B`
(which is `(0, 1)`), refuting the claim's identification of the computed
formula with `A * conj B`. -/
theorem crossPowerElem_ne_A_mul_conjB :
    crossPowerElem 0 1 1 0 ≠ cmul (0, 1) (cconj (1, 0)) := by
  norm_num [crossPowerElem, cmul, cconj, Prod.ext_iff]

/-- C4 (amended): for every index, the cross-power element equals
`(r1*r2 + i1*i2, r1*i2 − i1*r2)` exactly as claimed, and this complex value
equals the conjugate of station A's spectrum times station B's spectrum
(equivalently, station B times the conjugate of station A) — not
`A * conj B`. -/
theorem crossPowerElem_eq_conjA_mul_B :
    ∀ r1 i1 r2 i2 : ℚ,
    crossPowerElem r1 i1 r2 i2 = (r1 * r2 + i1 * i2, r1 * i2 - i1 * r2) ∧
    crossPowerElem r1 i1 r2 i2 = cmul (cconj (r1, i1)) (r2, i2) := by
  intro r1 i1 r2 i2
  constructor
  · simp only [crossPowerElem, Prod.mk.injEq]
    constructor <;> ring
  · simp only [crossPowerElem, cmul, cconj, Prod.mk.injEq]
    constructor <;> ring

/-! ## Mean / standard deviation of `Correlator::CalculateDeltaT`
(Correlator.cpp lines 72-89 and 169-177)

```cpp
double Correlator::vec_mean(double* v, size_t n) { ... return buff / n; }
double Correlator::vec_variance(double* v, double vmean, size_t n) {
    double buff = 0;
    for (size_t k = 0; k < n; k++) { buff += (v[k] - vmean) * (v[k] - vmean); }
    return sqrt(buff / (n - 1));
}
...
    cmean = vec_mean(cbuffr, N);
    cvar = vec_variance(cbuffr, cmean, N);
    for (size_t n = 0; n < N; ++n) {
        S[n] = (cbuffr[n] - cmean) / cvar;   // unguarded division
        ...
    }
```
-/

/-- `Correlator::vec_mean`: sum divided by `n`. -/
def vec_mean (v : List ℚ) : ℚ := v.sum / (v.length : ℚ)

/-- The radicand of `Correlator::vec_variance`: sum of squared deviations
divided by `n − 1`.  The source returns `sqrt` of this value; since the
square root is irrational in general it is not a rational-valued function,
but `sqrt x = 0` exactly when `x = 0`, which is all the degeneracy claim
needs: the source's `cvar` is zero iff this radicand is zero. -/
def vec_varianceSq (v : List ℚ) (vmean : ℚ) : ℚ :=
  (v.map fun x => (x - vmean) * (x - vmean)).sum / ((v.length - 1 : ℕ) : ℚ)

/-- The standardization loop of `CalculateDeltaT` (lines 174-177), given the
standard-deviation value `cvar` computed by `vec_variance`: the division
`(x − mean) / cvar` is performed unconditionally, with no zero guard and no
error path. -/
def standardizeWith (c : List ℚ) (cvar : ℚ) : List ℚ :=
  c.map fun x => (x - vec_mean c) / cvar

/-- Domain error demanded by the spec for a zero-variance series. -/
inductive CorrErr where
  | degenerateInput
deriving DecidableEq, Repr

/-- Modelled from the spec: the spec requires that a zero standard deviation
"must define explicit behavior (e.g., fail with `DegenerateInputError`), do
not divide by zero"; this guarded standardization, absent from the source,
fails instead of dividing when `cvar = 0`. -/
def standardizeGuarded (c : List ℚ) (cvar : ℚ) : Except CorrErr (List ℚ) :=
  if cvar = 0 then Except.error CorrErr.degenerateInput
  else Except.ok (standardizeWith c cvar)

/-- C3 (code bug): on the degenerate raw correlation series `[1, 1, 1, 1]`
(zero sample standard deviation) the variance radicand is 0, so the source's
`cvar = sqrt 0 = 0`; the unguarded standardization loop still produces a
series (dividing every deviation by zero — IEEE NaNs in the source, junk
zeros in this rational model) instead of failing, whereas the behavior the
claim demands fails with `DegenerateInputError`. -/
theorem standardize_unguarded_on_degenerate_input :
    vec_mean [1, 1, 1, 1] = 1 ∧
    vec_varianceSq [1, 1, 1, 1] (vec_mean [1, 1, 1, 1]) = 0 ∧
    standardizeWith [1, 1, 1, 1] 0 = [0, 0, 0, 0] ∧
    standardizeGuarded [1, 1, 1, 1] 0 = Except.error CorrErr.degenerateInput := by
  refine ⟨?_, ?_, ?_, ?_⟩
  · norm_num [vec_mean]
  · norm_num [vec_varianceSq, vec_mean]
  · norm_num [standardizeWith, vec_mean]
  · norm_num [standardizeGuarded]

/-! ## Noise reduction: `Correlator::noise_reduc_bound` and
`Correlator::delete_marked_values` (Correlator.cpp lines 259-301, 308-375)

A timestamp file is modelled as the flat list of its `uint64_t` words; a
record is a consecutive `(subSecondOffset, secondsCounter)` pair.  Both
loops read the file in chunks of `chunk_size` words (100000 at the call
site, CorrelatorGui.cpp line 123); the global word index
`chunkCnt * chunk_size + i` equals the word's position in the file, because
every chunk before the last is full, and since `chunk_size` is even the
in-chunk record pairing `i += 2` coincides with the global pairing
`(2k, 2k+1)`.  The loops are therefore embedded as flat traversals carrying
the global word index. -/

/-- The records (consecutive word pairs) of a flat word list, as read by the
`for (i; i + 1 < readCount; i += 2)` loops; a trailing unpaired word is
ignored. -/
def toRecords : List ℕ → List (ℕ × ℕ)
  | a :: b :: rest => (a, b) :: toRecords rest
  | _ => []

/-- Absolute time of a record in `uint64_t` arithmetic:
`datapoints[i] + datapoints[i + 1] * (uint64_t)1e12` (lines 339 and 360). -/
def absTime64 (sub sec : ℕ) : ℕ := (sub + sec * 10 ^ 12) % 2 ^ 64

/-- Bound list built from the smaller file (lines 336-343):
`lower = (datapoint > delay + bound_size) ? datapoint - delay - bound_size : 0`
and `upper = datapoint - delay + bound_size` in `uint64_t` arithmetic. -/
def mkBounds (delay bsz : ℕ) (smaller : List ℕ) : List Bound :=
  (toRecords smaller).map fun r =>
    let d := absTime64 r.1 r.2
    ⟨if delay + bsz < d then d - delay - bsz else 0,
     ((d + 2 ^ 64 - delay % 2 ^ 64) % 2 ^ 64 + bsz) % 2 ^ 64⟩

/-- Marking loop of `noise_reduc_bound` (lines 355-367): for each record of
the larger file (global word indices `p, p+1`) whose absolute time lies in no
bound, both word indices are appended to `marked`. -/
def markIndices (bounds : List Bound) : ℕ → List ℕ → List ℕ
  | _, [] => []
  | _, [_] => []
  | p, a :: b :: rest =>
    if is_target_in_bound (fun i => bounds.getD i default) bounds.length (absTime64 a b) then
      markIndices bounds (p + 2) rest
    else
      p :: (p + 1) :: markIndices bounds (p + 2) rest

/-- Copy loop of `delete_marked_values` (lines 277-286): walk the words with
their global index, keeping exactly those whose index is not in the sorted
`marked` vector (`std::binary_search` over a sorted range decides
membership). -/
def delete_marked_go (marked : List ℕ) : ℕ → List ℕ → List ℕ
  | _, [] => []
  | p, a :: rest =>
    if p ∈ marked then delete_marked_go marked (p + 1) rest
    else a :: delete_marked_go marked (p + 1) rest

/-- `Correlator::delete_marked_values` on the contents of the larger file. -/
def delete_marked_values (marked l : List ℕ) : List ℕ := delete_marked_go marked 0 l

/-- `Correlator::noise_reduc_bound` followed by `delete_marked_values`: the
contents of the rewritten larger file.  File size in bytes is `8 * length`;
on equal sizes both selections pick the second file, exactly as in the source
(`size1 > size2 ? fp1 : fp2` / `size1 < size2 ? fp1 : fp2`), and the source's
`get_delay_estimate()` is the constant 10000 with `bound_size = 10000`. -/
def noise_reduc_pass (fp1 fp2 : List ℕ) : List ℕ :=
  let larger := if fp2.length < fp1.length then fp1 else fp2
  let smaller := if fp1.length < fp2.length then fp1 else fp2
  delete_marked_values (markIndices (mkBounds 10000 10000 smaller) 0 larger) larger

theorem delete_marked_go_sublist (marked : List ℕ) :
    ∀ (l : List ℕ) (p : ℕ), List.Sublist (delete_marked_go marked p l) l := by
  intro l
  induction l with
  | nil => intro p; simp [delete_marked_go]
  | cons a rest ih =>
    intro p
    by_cases hp : p ∈ marked
    · simp only [delete_marked_go, if_pos hp]
      exact List.Sublist.cons a (ih (p + 1))
    · simp only [delete_marked_go, if_neg hp]
      exact List.Sublist.cons₂ a (ih (p + 1))

theorem mem_markIndices_ge (bounds : List Bound) :
    ∀ (l : List ℕ) (p q : ℕ), q ∈ markIndices bounds p l → p ≤ q
  | [] => by
    intro p q hq
    simp [markIndices] at hq
  | [a] => by
    intro p q hq
    simp [markIndices] at hq
  | a :: b :: rest => by
    intro p q hq
    have ih := mem_markIndices_ge bounds rest (p + 2) q
    simp only [markIndices] at hq
    split at hq
    · exact le_trans (by omega) (ih hq)
    · simp only [List.mem_cons] at hq
      rcases hq with h | h | h
      · omega
      · omega
      · exact le_trans (by omega) (ih h)

/-- If two marked lists agree on every index `≥ p`, the copy loop started at
`p` produces the same output. -/
theorem delete_marked_go_congr (m1 m2 : List ℕ)
    (l : List ℕ) : ∀ (p : ℕ), (∀ q, p ≤ q → (q ∈ m1 ↔ q ∈ m2)) →
    delete_marked_go m1 p l = delete_marked_go m2 p l := by
  induction l with
  | nil => intro p _; rfl
  | cons a rest ih =>
    intro p hagree
    have hmem : (p ∈ m1) = (p ∈ m2) := propext (hagree p (le_refl p))
    have hrec := ih (p + 1) (fun q hq => hagree q (by omega))
    by_cases hp : p ∈ m1
    · have hp2 : p ∈ m2 := (hagree p (le_refl p)).mp hp
      simp only [delete_marked_go, if_pos hp, if_pos hp2, hrec]
    · have hp2 : p ∉ m2 := fun h => hp ((hagree p (le_refl p)).mpr h)
      simp only [delete_marked_go, if_neg hp, if_neg hp2, hrec]

/-- Record-level filter property of the noise-reduction pass: the records of
the output are a sublist of the records of the input, because `markIndices`
marks word indices only in whole aligned pairs. -/
theorem records_pass_sublist (bounds : List Bound) :
    ∀ (l : List ℕ) (p : ℕ),
    List.Sublist (toRecords (delete_marked_go (markIndices bounds p l) p l)) (toRecords l)
  | [] => by
    intro p
    simp [markIndices, delete_marked_go, toRecords]
  | [a] => by
    intro p
    simp [markIndices, delete_marked_go, toRecords]
  | a :: b :: rest => by
    intro p
    have ih := records_pass_sublist bounds rest
    by_cases hb : is_target_in_bound (fun i => bounds.getD i default) bounds.length
        (absTime64 a b) = true
    · have hmarks : markIndices bounds p (a :: b :: rest) = markIndices bounds (p + 2) rest := by
        simp only [markIndices, if_pos hb]
      have hpnot : p ∉ markIndices bounds (p + 2) rest := fun h => by
        have := mem_markIndices_ge bounds rest (p + 2) p h; omega
      have hp1not : p + 1 ∉ markIndices bounds (p + 2) rest := fun h => by
        have := mem_markIndices_ge bounds rest (p + 2) (p + 1) h; omega
      rw [hmarks]
      simp only [delete_marked_go, if_neg hpnot, if_neg hp1not]
      show List.Sublist
        ((a, b) :: toRecords (delete_marked_go (markIndices bounds (p + 2) rest) (p + 1 + 1) rest))
        ((a, b) :: toRecords rest)
      have : p + 1 + 1 = p + 2 := by omega
      rw [this]
      exact List.Sublist.cons₂ (a, b) (ih (p + 2))
    · have hmarks : markIndices bounds p (a :: b :: rest) =
          p :: (p + 1) :: markIndices bounds (p + 2) rest := by
        simp only [markIndices, if_neg hb]
      rw [hmarks]
      have hp : p ∈ p :: (p + 1) :: markIndices bounds (p + 2) rest := by simp
      have hp1 : p + 1 ∈ p :: (p + 1) :: markIndices bounds (p + 2) rest := by simp
      simp only [delete_marked_go, if_pos hp, if_pos hp1]
      have hcongr : delete_marked_go (p :: (p + 1) :: markIndices bounds (p + 2) rest)
          (p + 1 + 1) rest = delete_marked_go (markIndices bounds (p + 2) rest) (p + 1 + 1) rest := by
        apply delete_marked_go_congr
        intro q hq
        have h1 : q ≠ p := by omega
        have h2 : q ≠ p + 1 := by omega
        simp [h1, h2]
      rw [hcongr]
      have : p + 1 + 1 = p + 2 := by omega
      rw [this]
      exact List.Sublist.trans (ih (p + 2)) (List.sublist_cons_self (a, b) (toRecords rest))

/-- C5: the noise-reduction pass (`noise_reduc_bound` followed by
`delete_marked_values`) rewrites the larger file into an order-preserving
subsequence of its words, and at the record level an order-preserving
subsequence of its records: surviving records are byte-identical to their
pre-filter values, no record value is modified, and only whole records are
omitted. -/
theorem noise_reduction_is_record_subsequence (fp1 fp2 : List ℕ) :
    List.Sublist (noise_reduc_pass fp1 fp2) (if fp2.length < fp1.length then fp1 else fp2) ∧
    List.Sublist (toRecords (noise_reduc_pass fp1 fp2))
      (toRecords (if fp2.length < fp1.length then fp1 else fp2)) := by
  constructor
  · exact delete_marked_go_sublist _ _ 0
  · exact records_pass_sublist _ _ 0

/-! ## `Orchestrator::findCoincidences` (orchestrator.cpp lines 352-380)

```cpp
    size_t j = 0;
    for (int64_t clientTime : clientTimestamps) {
        int64_t adjustedClientTime = clientTime + stationTimeOffset;
        while (j < serverTimestamps.size() &&
               serverTimestamps[j] < adjustedClientTime - tolerancePico) {
            ++j;
        }
        if (j < serverTimestamps.size() &&
            std::abs(serverTimestamps[j] - adjustedClientTime) <= tolerancePico) {
            int64_t coincidenceTime = (adjustedClientTime + serverTimestamps[j]) / 2;
            coincidences.push_back(coincidenceTime);
        }
    }
```
`int64_t` is modelled as `ℤ` (physical timestamps stay far below 2^63);
C++ `/` on `int64_t` truncates toward zero, i.e. `Int.tdiv`. -/

/-- The inner `while` loop: advance the server cursor past every event
earlier than `target = adjustedClientTime - tolerancePico`.  `fuel` bounds
the iteration count; `server.length` units always suffice since `j` stops at
`server.length`. -/
def advanceCursor (server : List ℤ) (target : ℤ) : ℕ → ℕ → ℕ
  | 0, j => j
  | fuel + 1, j =>
    if j < server.length ∧ server.getD j 0 < target then advanceCursor server target fuel (j + 1)
    else j

/-- The `for` loop of `findCoincidences`, carrying the server cursor `j`. -/
def findCoincidencesGo (offset tol : ℤ) (server : List ℤ) : List ℤ → ℕ → List ℤ
  | [], _ => []
  | c :: cs, j =>
    let a := c + offset
    let j2 := advanceCursor server (a - tol) server.length j
    if j2 < server.length ∧ |server.getD j2 0 - a| ≤ tol then
      Int.tdiv (a + server.getD j2 0) 2 :: findCoincidencesGo offset tol server cs j2
    else
      findCoincidencesGo offset tol server cs j2

/-- `Orchestrator::findCoincidences`.  `offset` is the member
`stationTimeOffset` added to every client time. -/
def findCoincidences (offset tol : ℤ) (client server : List ℤ) : List ℤ :=
  if client.isEmpty ∨ server.isEmpty then []
  else findCoincidencesGo offset tol server client 0

/-- Elements read through the cursor come from the server list. -/
theorem getD_mem_of_lt {l : List ℤ} {n : ℕ} (h : n < l.length) : l.getD n 0 ∈ l := by
  rw [List.getD_eq_getElem l 0 h]
  exact List.getElem_mem h

theorem findCoincidencesGo_sound (offset tol : ℤ) (server : List ℤ) :
    ∀ (client : List ℤ) (j : ℕ) (x : ℤ), x ∈ findCoincidencesGo offset tol server client j →
    ∃ c ∈ client, ∃ s ∈ server, |s - (c + offset)| ≤ tol ∧ x = Int.tdiv (c + offset + s) 2 := by
  intro client
  induction client with
  | nil =>
    intro j x hx
    simp [findCoincidencesGo] at hx
  | cons c cs ih =>
    intro j x hx
    simp only [findCoincidencesGo] at hx
    split at hx
    case isTrue hcond =>
      rcases List.mem_cons.mp hx with hx | hx
      · exact ⟨c, List.mem_cons_self c cs, server.getD _ 0, getD_mem_of_lt hcond.1, hcond.2, hx⟩
      · obtain ⟨c', hc', s, hs, habs, hval⟩ := ih _ x hx
        exact ⟨c', List.mem_cons_of_mem c hc', s, hs, habs, hval⟩
    case isFalse hcond =>
      obtain ⟨c', hc', s, hs, habs, hval⟩ := ih _ x hx
      exact ⟨c', List.mem_cons_of_mem c hc', s, hs, habs, hval⟩

/-- C6: every value returned by `findCoincidences` is the midpoint
`(adjustedClientTime + serverTime) / 2` of a client/server pair whose
offset-adjusted times lie within the tolerance window:
`|serverTime − (clientTime + offset)| ≤ tolerance`. -/
theorem findCoincidences_midpoint_within_tolerance (offset tol : ℤ) (client server : List ℤ) :
    ∀ x ∈ findCoincidences offset tol client server,
    ∃ c ∈ client, ∃ s ∈ server, |s - (c + offset)| ≤ tol ∧ x = Int.tdiv (c + offset + s) 2 := by
  intro x hx
  unfold findCoincidences at hx
  split at hx
  · simp at hx
  · exact findCoincidencesGo_sound offset tol server client 0 x hx

/-- C6 (witness): the theorem applied to client `[4]`, server `[6]`, offset 0,
tolerance 10000; the single returned coincidence `5` is such a midpoint. -/
theorem findCoincidences_midpoint_within_tolerance_witness :
    ∃ c ∈ ([4] : List ℤ), ∃ s ∈ ([6] : List ℤ), |s - (c + 0)| ≤ 10000 ∧
      (5 : ℤ) = Int.tdiv (c + 0 + s) 2 :=
  findCoincidences_midpoint_within_tolerance 0 10000 [4] [6] 5 (by decide)

/-- C10: (a) the server cursor is advanced only past server events strictly
earlier than the tolerance window's left edge, and is never advanced past a
matched event (the cursor value `j2` is reused unchanged for the next client
in `findCoincidencesGo`); so (b) a single server timestamp can match several
consecutive client timestamps: with client `[0, 1, 2]` and server `[0]` the
returned list has 3 entries — more than the 1 distinct server event. -/
theorem findCoincidences_cursor_skips_only_early_events :
    (∀ (server : List ℤ) (target : ℤ) (fuel j k : ℕ), j ≤ k →
      k < advanceCursor server target fuel j → server.getD k 0 < target) ∧
    findCoincidences 0 10000 [0, 1, 2] [0] = [0, 0, 1] := by
  constructor
  · intro server target fuel
    induction fuel with
    | zero =>
      intro j k hjk hk
      simp [advanceCursor] at hk
      omega
    | succ fuel ih =>
      intro j k hjk hk
      simp only [advanceCursor] at hk
      split at hk
      case isTrue hcond =>
        by_cases hkj : j = k
        · subst hkj
          exact hcond.2
        · exact ih (j + 1) k (by omega) hk
      case isFalse hcond =>
        omega
  · decide

/-- C10 (witness): the cursor lemma applied concretely: with server `[0]` and
window edge `5`, the cursor advances from 0 to 1, and the skipped event
`server[0] = 0` is indeed earlier than the edge. -/
theorem findCoincidences_cursor_skips_only_early_events_witness :
    ([0] : List ℤ).getD 0 0 < 5 :=
  findCoincidences_cursor_skips_only_early_events.1 [0] 5 1 0 0 (le_refl 0) (by decide)

/-! ## `Orchestrator::binCoincidencesByAngle` (orchestrator.cpp lines 382-400)

```cpp
    for (int64_t timestamp : coincidenceTimestamps) {
        int64_t elapsedPico = timestamp - lastMeasurementStartTimePico;
        double elapsedSec = static_cast<double>(elapsedPico) / 1e12;
        double angle = elapsedSec * rotationSpeed;
        size_t binIndex = static_cast<size_t>(angle / degreeStep);
        if (binIndex < numAngleBins) {
            coincidenceBins[binIndex]++;
            totalCoincidences++;
        }
    }
```
`double` arithmetic is modelled over `ℚ`; the `double → size_t` cast
truncates, which for the non-negative angles quantified by the claims is the
floor (for a negative angle the cast is undefined behavior in C++, excluded
here by hypothesis).  `coincidenceBins` has length `numAngleBins` (resized in
the constructor, line 38), so the histogram bound is `bins.length`. -/

/-- The coincidence histogram and total counter mutated by the binning loop. -/
structure BinState where
  bins : List ℕ
  total : ℕ
deriving DecidableEq, Repr

/-- One iteration of the binning loop of `binCoincidencesByAngle`. -/
def binOne (startPico : ℤ) (rotationSpeed degreeStep : ℚ) (st : BinState)
    (timestamp : ℤ) : BinState :=
  let elapsedPico : ℤ := timestamp - startPico
  let elapsedSec : ℚ := (elapsedPico : ℚ) / 10 ^ 12
  let angle : ℚ := elapsedSec * rotationSpeed
  let binIndex : ℕ := (⌊angle / degreeStep⌋).toNat
  if binIndex < st.bins.length then
    ⟨st.bins.set binIndex (st.bins.getD binIndex 0 + 1), st.total + 1⟩
  else st

/-- `Orchestrator::binCoincidencesByAngle` over a coincidence list. -/
def binCoincidencesByAngle (startPico : ℤ) (speed degStep : ℚ) (st : BinState)
    (ts : List ℤ) : BinState :=
  ts.foldl (binOne startPico speed degStep) st

/-- C7 (counterexample): the claim fails for a coincidence whose angle bucket
falls outside the histogram: with measurement start 0, full-phase rotation
speed 6°/s, 5° bins and 36 bins, a coincidence at 40 s (bucket 48 ≥ 36) is
silently dropped — `totalCoincidences` is not incremented and no bucket is
incremented. -/
theorem binCoincidences_drops_out_of_range :
    binCoincidencesByAngle 0 6 5 ⟨List.replicate 36 0, 0⟩ [40 * 10 ^ 12] =
      ⟨List.replicate 36 0, 0⟩ := by
  have hfloor : (⌊((40 * 10 ^ 12 : ℤ) : ℚ) / 10 ^ 12 * 6 / 5⌋ : ℤ) = 48 := by norm_num
  simp only [binCoincidencesByAngle, List.foldl_cons, List.foldl_nil, binOne, sub_zero,
    hfloor, List.length_replicate]
  norm_num

/-- C7 (amended): a coincidence is counted iff its bucket fits the histogram:
when the (non-negative) bucket index `⌊elapsed/10^12 * speed / degStep⌋` is
below the number of bins, `totalCoincidences` is incremented and exactly that
bucket of the histogram is incremented; otherwise the coincidence is
discarded and neither the total nor any bucket changes. -/
theorem binOne_counts_exactly_in_range (startPico : ℤ) (speed degStep : ℚ)
    (st : BinState) (t : ℤ)
    (hpos : 0 ≤ ((t - startPico : ℤ) : ℚ) / 10 ^ 12 * speed / degStep) :
    ((⌊((t - startPico : ℤ) : ℚ) / 10 ^ 12 * speed / degStep⌋).toNat < st.bins.length →
      binOne startPico speed degStep st t =
        ⟨st.bins.set ((⌊((t - startPico : ℤ) : ℚ) / 10 ^ 12 * speed / degStep⌋).toNat)
          (st.bins.getD ((⌊((t - startPico : ℤ) : ℚ) / 10 ^ 12 * speed / degStep⌋).toNat) 0 + 1),
         st.total + 1⟩) ∧
    (st.bins.length ≤ (⌊((t - startPico : ℤ) : ℚ) / 10 ^ 12 * speed / degStep⌋).toNat →
      binOne startPico speed degStep st t = st) := by
  constructor
  · intro h
    simp only [binOne]
    rw [if_pos h]
  · intro h
    simp only [binOne]
    rw [if_neg (not_lt.mpr h)]

/-- C7 (witness): the amended theorem applied at measurement start 0, speed
6°/s, 5° bins, an empty 36-bin histogram and a coincidence at 1 s: bucket
`⌊6/5⌋ = 1` is incremented and the total becomes 1. -/
theorem binOne_counts_exactly_in_range_witness :
    binOne 0 6 5 ⟨List.replicate 36 0, 0⟩ (10 ^ 12) =
      ⟨(List.replicate 36 0).set ((⌊((10 ^ 12 - 0 : ℤ) : ℚ) / 10 ^ 12 * 6 / 5⌋).toNat)
        ((List.replicate 36 0).getD ((⌊((10 ^ 12 - 0 : ℤ) : ℚ) / 10 ^ 12 * 6 / 5⌋).toNat) 0 + 1),
       0 + 1⟩ :=
  (binOne_counts_exactly_in_range 0 6 5 ⟨List.replicate 36 0, 0⟩ (10 ^ 12)
    (by norm_num)).1 (by norm_num)

/-! ## `Orchestrator::computeVisibility` (orchestrator.cpp lines 402-416)

```cpp
    if (coincidenceBins.empty() || totalCoincidences == 0) { return 0.0; }
    auto minmax = std::minmax_element(coincidenceBins.begin(), coincidenceBins.end());
    double C_min = static_cast<double>(*minmax.first);
    double C_max = static_cast<double>(*minmax.second);
    if (C_max + C_min == 0.0) { return 0.0; }
    return (C_max - C_min) / (C_max + C_min);
```
`std::minmax_element` over the non-empty bins list is the list minimum and
maximum. -/

/-- Minimum element of a list of counts (0 for the empty list, which the
caller excludes). -/
def listMinNat : List ℕ → ℕ
  | [] => 0
  | a :: rest => rest.foldl min a

/-- Maximum element of a list of counts (0 for the empty list, which the
caller excludes). -/
def listMaxNat : List ℕ → ℕ
  | [] => 0
  | a :: rest => rest.foldl max a

/-- `Orchestrator::computeVisibility`, as a function of the histogram and the
total coincidence counter. -/
def computeVisibility (bins : List ℕ) (total : ℕ) : ℚ :=
  if bins.isEmpty ∨ total = 0 then 0
  else
    let cmin : ℚ := (listMinNat bins : ℚ)
    let cmax : ℚ := (listMaxNat bins : ℚ)
    if cmax + cmin = 0 then 0 else (cmax - cmin) / (cmax + cmin)

theorem foldl_min_le_init : ∀ (l : List ℕ) (a : ℕ), l.foldl min a ≤ a := by
  intro l
  induction l with
  | nil => intro a; exact le_refl a
  | cons b rest ih =>
    intro a
    exact le_trans (ih (min a b)) (min_le_left a b)

theorem foldl_min_le_mem : ∀ (l : List ℕ) (a x : ℕ), x ∈ l → l.foldl min a ≤ x := by
  intro l
  induction l with
  | nil => intro a x hx; simp at hx
  | cons b rest ih =>
    intro a x hx
    rcases List.mem_cons.mp hx with h | h
    · subst h
      exact le_trans (foldl_min_le_init rest (min a x)) (min_le_right a x)
    · exact ih (min a b) x h

theorem foldl_min_eq_or_mem : ∀ (l : List ℕ) (a : ℕ), l.foldl min a = a ∨ l.foldl min a ∈ l := by
  intro l
  induction l with
  | nil => intro a; exact Or.inl rfl
  | cons b rest ih =>
    intro a
    rcases ih (min a b) with h | h
    · rcases min_choice a b with hab | hab
      · exact Or.inl (by rw [List.foldl_cons, h, hab])
      · exact Or.inr (by rw [List.foldl_cons, h, hab]; exact List.mem_cons_self b rest)
    · exact Or.inr (List.mem_cons_of_mem b h)

theorem le_foldl_max_init : ∀ (l : List ℕ) (a : ℕ), a ≤ l.foldl max a := by
  intro l
  induction l with
  | nil => intro a; exact le_refl a
  | cons b rest ih =>
    intro a
    exact le_trans (le_max_left a b) (ih (max a b))

theorem mem_le_foldl_max : ∀ (l : List ℕ) (a x : ℕ), x ∈ l → x ≤ l.foldl max a := by
  intro l
  induction l with
  | nil => intro a x hx; simp at hx
  | cons b rest ih =>
    intro a x hx
    rcases List.mem_cons.mp hx with h | h
    · subst h
      exact le_trans (le_max_right a x) (le_foldl_max_init rest (max a x))
    · exact ih (max a b) x h

theorem foldl_max_eq_or_mem : ∀ (l : List ℕ) (a : ℕ), l.foldl max a = a ∨ l.foldl max a ∈ l := by
  intro l
  induction l with
  | nil => intro a; exact Or.inl rfl
  | cons b rest ih =>
    intro a
    rcases ih (max a b) with h | h
    · rcases max_choice a b with hab | hab
      · exact Or.inl (by rw [List.foldl_cons, h, hab])
      · exact Or.inr (by rw [List.foldl_cons, h, hab]; exact List.mem_cons_self b rest)
    · exact Or.inr (List.mem_cons_of_mem b h)

theorem listMinNat_le_mem {l : List ℕ} {x : ℕ} (hx : x ∈ l) : listMinNat l ≤ x := by
  cases l with
  | nil => simp at hx
  | cons a rest =>
    rcases List.mem_cons.mp hx with h | h
    · subst h
      exact foldl_min_le_init rest x
    · exact foldl_min_le_mem rest a x h

theorem mem_le_listMaxNat {l : List ℕ} {x : ℕ} (hx : x ∈ l) : x ≤ listMaxNat l := by
  cases l with
  | nil => simp at hx
  | cons a rest =>
    rcases List.mem_cons.mp hx with h | h
    · subst h
      exact le_foldl_max_init rest x
    · exact mem_le_foldl_max rest a x h

theorem listMinNat_mem {l : List ℕ} (hl : l ≠ []) : listMinNat l ∈ l := by
  cases l with
  | nil => exact absurd rfl hl
  | cons a rest =>
    rcases foldl_min_eq_or_mem rest a with h | h
    · rw [listMinNat, h]; exact List.mem_cons_self a rest
    · exact List.mem_cons_of_mem a (by rw [listMinNat]; exact h)

theorem listMaxNat_mem {l : List ℕ} (hl : l ≠ []) : listMaxNat l ∈ l := by
  cases l with
  | nil => exact absurd rfl hl
  | cons a rest =>
    rcases foldl_max_eq_or_mem rest a with h | h
    · rw [listMaxNat, h]; exact List.mem_cons_self a rest
    · exact List.mem_cons_of_mem a (by rw [listMaxNat]; exact h)

/-- C8: `computeVisibility` always lies in `[0, 1]`; for a non-empty
histogram with at least one counted coincidence it equals
`(maxBin − minBin) / (maxBin + minBin)` and is 0 exactly when all bins are
equal; for an empty histogram or a zero total or a zero denominator it
returns 0. -/
theorem computeVisibility_bounds_and_zero_iff (bins : List ℕ) (total : ℕ) :
    (0 ≤ computeVisibility bins total ∧ computeVisibility bins total ≤ 1) ∧
    (bins ≠ [] → total ≠ 0 →
      computeVisibility bins total =
        ((listMaxNat bins : ℚ) - (listMinNat bins : ℚ)) /
          ((listMaxNat bins : ℚ) + (listMinNat bins : ℚ)) ∧
      (computeVisibility bins total = 0 ↔ ∀ x ∈ bins, ∀ y ∈ bins, x = y)) ∧
    ((bins = [] ∨ total = 0 ∨ listMaxNat bins + listMinNat bins = 0) →
      computeVisibility bins total = 0) := by
  have hminmax : ∀ hne : bins ≠ [], listMinNat bins ≤ listMaxNat bins := fun hne =>
    le_trans (listMinNat_le_mem (listMaxNat_mem hne)) (le_refl _)
  have hkey : ∀ hne : bins ≠ [],
      (listMaxNat bins = listMinNat bins ↔ ∀ x ∈ bins, ∀ y ∈ bins, x = y) := by
    intro hne
    constructor
    · intro h x hx y hy
      have h1 : listMinNat bins ≤ x := listMinNat_le_mem hx
      have h2 : x ≤ listMaxNat bins := mem_le_listMaxNat hx
      have h3 : listMinNat bins ≤ y := listMinNat_le_mem hy
      have h4 : y ≤ listMaxNat bins := mem_le_listMaxNat hy
      omega
    · intro h
      exact h _ (listMaxNat_mem hne) _ (listMinNat_mem hne)
  by_cases hguard : bins.isEmpty ∨ total = 0
  · have h0 : computeVisibility bins total = 0 := by
      simp only [computeVisibility, if_pos hguard]
    refine ⟨⟨by simp [h0], by simp [h0]⟩, ?_, fun _ => h0⟩
    intro hne htot
    rcases hguard with h | h
    · exact absurd (List.isEmpty_iff.mp h) hne
    · exact absurd h htot
  · push_neg at hguard
    have hne : bins ≠ [] := fun h => hguard.1 (by rw [h]; rfl)
    have hmm := hminmax hne
    by_cases hden : (listMaxNat bins : ℚ) + (listMinNat bins : ℚ) = 0
    · have hguard' : ¬(bins.isEmpty = true ∨ total = 0) := fun hor =>
        hor.elim (fun h => hne (List.isEmpty_iff.mp h)) hguard.2
      have h0 : computeVisibility bins total = 0 := by
        simp only [computeVisibility]
        rw [if_neg hguard', if_pos hden]
      have hzero : listMaxNat bins = 0 ∧ listMinNat bins = 0 := by
        have h' : listMaxNat bins + listMinNat bins = 0 := by exact_mod_cast hden
        omega
      refine ⟨⟨by simp [h0], by simp [h0]⟩, ?_, fun _ => h0⟩
      intro _ _
      constructor
      · rw [h0, hden, div_zero]
      · rw [h0]
        constructor
        · intro _ x hx y hy
          have h1 := mem_le_listMaxNat hx
          have h2 := mem_le_listMaxNat hy
          omega
        · intro _
          rfl
    · have hpos : (0 : ℚ) < (listMaxNat bins : ℚ) + (listMinNat bins : ℚ) := by
        rcases lt_or_eq_of_le (by positivity : (0 : ℚ) ≤ (listMaxNat bins : ℚ) + (listMinNat bins : ℚ)) with h | h
        · exact h
        · exact absurd h.symm hden
      have hguard' : ¬(bins.isEmpty = true ∨ total = 0) := fun hor =>
        hor.elim (fun h => hne (List.isEmpty_iff.mp h)) hguard.2
      have hval : computeVisibility bins total =
          ((listMaxNat bins : ℚ) - (listMinNat bins : ℚ)) /
            ((listMaxNat bins : ℚ) + (listMinNat bins : ℚ)) := by
        simp only [computeVisibility]
        rw [if_neg hguard', if_neg hden]
      have hnum : (0 : ℚ) ≤ (listMaxNat bins : ℚ) - (listMinNat bins : ℚ) := by
        have : (listMinNat bins : ℚ) ≤ (listMaxNat bins : ℚ) := by exact_mod_cast hmm
        linarith
      refine ⟨⟨?_, ?_⟩, ?_, fun habs => ?_⟩
      · rw [hval]
        positivity
      · rw [hval]
        rw [div_le_one hpos]
        have : (0 : ℚ) ≤ (listMinNat bins : ℚ) := by positivity
        linarith
      · intro _ _
        refine ⟨hval, ?_⟩
        rw [hval]
        rw [div_eq_zero_iff]
        constructor
        · intro h
          rcases h with h | h
          · rw [← hkey hne]
            have : (listMaxNat bins : ℚ) = (listMinNat bins : ℚ) := by linarith
            exact_mod_cast this
          · exact absurd h hden
        · intro h
          left
          have : listMaxNat bins = listMinNat bins := (hkey hne).mpr h
          rw [this]
          ring
      · rcases habs with h | h | h
        · exact absurd h hne
        · exact absurd h hguard.2
        · have : (listMaxNat bins : ℚ) + (listMinNat bins : ℚ) = 0 := by exact_mod_cast h
          exact absurd this hden

/-- C8 (witness): the theorem applied to the concrete histogram `[3, 1]` with
total 4: visibility is `(3 − 1)/(3 + 1)` and is nonzero since the bins are
not all equal. -/
theorem computeVisibility_bounds_and_zero_iff_witness :
    computeVisibility [3, 1] 4 =
      ((listMaxNat [3, 1] : ℚ) - (listMinNat [3, 1] : ℚ)) /
        ((listMaxNat [3, 1] : ℚ) + (listMinNat [3, 1] : ℚ)) ∧
    (computeVisibility [3, 1] 4 = 0 ↔ ∀ x ∈ [3, 1], ∀ y ∈ [3, 1], x = y) :=
  (computeVisibility_bounds_and_zero_iff [3, 1] 4).2.1 (by decide) (by decide)

/-! ## `Orchestrator::analyzeCoincidences` (orchestrator.cpp lines 268-305)
with `collectDataFiles` (lines 307-329) and `loadTimestampsFromFile`
(lines 331-350)

The filesystem is modelled as `Option (List (String × List (ℕ × ℕ)))`: `none`
is a missing data folder (`std::filesystem::exists` returns false), `some
entries` the regular files (name and decoded records) in directory order;
a `filesystem_error` caught by `collectDataFiles` likewise yields the files
collected so far, so the directory model covers both of its return paths. -/

/-- `static_cast<int64_t>` of a `uint64_t` value. -/
def toInt64 (n : ℕ) : ℤ :=
  if n % 2 ^ 64 < 2 ^ 63 then (n % 2 ^ 64 : ℤ) else (n % 2 ^ 64 : ℤ) - 2 ^ 64

/-- `Orchestrator::loadTimestampsFromFile` on the decoded records:
`(int64_t)picosec + (int64_t)refSec * 1000000000000LL` (physical timestamps
stay far below the `int64_t` overflow threshold). -/
def loadTimestamps (recs : List (ℕ × ℕ)) : List ℤ :=
  recs.map fun r => toInt64 r.1 + toInt64 r.2 * 10 ^ 12

/-- `Orchestrator::collectDataFiles`: empty for a missing folder, otherwise
the files whose name contains `condition` as a substring
(`filename.find(condition) != npos`). -/
def collectDataFiles (dir : Option (List (String × List (ℕ × ℕ)))) (condition : String) :
    List (String × List (ℕ × ℕ)) :=
  match dir with
  | none => []
  | some entries => entries.filter fun e => decide (condition.toList <:+: e.1.toList)

/-- Result state written by `analyzeCoincidences`: the angle histogram,
`totalCoincidences` and `currentVisibility`. -/
structure AnalyzeResult where
  bins : List ℕ
  total : ℕ
  visibility : ℚ
deriving Repr

/-- `Orchestrator::analyzeCoincidences`: reset the histogram and the total,
collect the client (`"bme"`) and server (`"wigner"`) files, return zeros if
either side is empty; otherwise process `min(#client, #server)` pairs through
`findCoincidences` (tolerance 10000 ps) and `binCoincidencesByAngle`, then
compute the visibility.  `speed` is `getRotationSpeed(lastMeasurementType)`. -/
def analyzeCoincidences (dir : Option (List (String × List (ℕ × ℕ))))
    (offset startPico : ℤ) (speed degStep : ℚ) (numBins : ℕ) : AnalyzeResult :=
  let bins0 := List.replicate numBins 0
  let clientFiles := collectDataFiles dir "bme"
  let serverFiles := collectDataFiles dir "wigner"
  if clientFiles.isEmpty ∨ serverFiles.isEmpty then ⟨bins0, 0, 0⟩
  else
    let st := (clientFiles.zip serverFiles).foldl
      (fun st pr =>
        binCoincidencesByAngle startPico speed degStep st
          (findCoincidences offset 10000 (loadTimestamps pr.1.2) (loadTimestamps pr.2.2)))
      ⟨bins0, 0⟩
    ⟨st.bins, st.total, computeVisibility st.bins st.total⟩

/-- C9: if the data directory is missing (`none`), or it contains no client
file / no server file (no matching pair), `analyzeCoincidences` returns
`totalCoincidences = 0` and `currentVisibility = 0`; being a total function
of the directory model, it aborts nothing. -/
theorem analyzeCoincidences_no_data_yields_zero (offset startPico : ℤ)
    (speed degStep : ℚ) (numBins : ℕ) :
    ((analyzeCoincidences none offset startPico speed degStep numBins).total = 0 ∧
     (analyzeCoincidences none offset startPico speed degStep numBins).visibility = 0) ∧
    (∀ entries,
      collectDataFiles (some entries) "bme" = [] ∨
        collectDataFiles (some entries) "wigner" = [] →
      (analyzeCoincidences (some entries) offset startPico speed degStep numBins).total = 0 ∧
      (analyzeCoincidences (some entries) offset startPico speed degStep numBins).visibility
        = 0) := by
  constructor
  · exact ⟨rfl, rfl⟩
  · intro entries hemp
    have hcond : (collectDataFiles (some entries) "bme").isEmpty = true ∨
        (collectDataFiles (some entries) "wigner").isEmpty = true := by
      rcases hemp with h | h
      · exact Or.inl (by rw [h]; rfl)
      · exact Or.inr (by rw [h]; rfl)
    constructor
    · simp only [analyzeCoincidences]
      rw [if_pos hcond]
    · simp only [analyzeCoincidences]
      rw [if_pos hcond]

/-- C9 (witness): the theorem applied to a directory holding one server file
and no client file (`"bme"` is not a substring of `"wignerdata"`): the
analysis yields total 0 and visibility 0. -/
theorem analyzeCoincidences_no_data_yields_zero_witness :
    (analyzeCoincidences (some [("wignerdata", [])]) 0 0 6 5 36).total = 0 ∧
    (analyzeCoincidences (some [("wignerdata", [])]) 0 0 6 5 36).visibility = 0 :=
  (analyzeCoincidences_no_data_yields_zero 0 0 6 5 36).2 [("wignerdata", [])]
    (Or.inl (by decide))

end Quantum
